import Mathlib

/-!
# Verification of `scripts/find-cooklang-repos.py`

A shallow embedding of the Cooklang federation repository-finder script.
Text is modelled as `List Char`; Python dictionaries with optional keys are
modelled as structures with `Option` fields (`none` = key missing); the
paginated HTTP search is modelled as a function from page numbers to an
optional list of result items (`none` = the request raised an exception,
which covers HTTP errors such as authentication failures as well as
network errors, since `_make_request` lets all of them propagate to the
caller's `except` clause).
-/

/-- Text is modelled as a list of characters. -/
abbrev Str := List Char

/-- Embed a Lean string literal into the `Str` model. -/
def strL (s : String) : Str := s.data

/-! ## The Searcher (`GitHubSearcher`, lines 40-150) -/

/-- The `repository` object nested in one code-search result item
(`item["repository"]`).  Each field models `repo.get(key)`, with `none`
standing for a missing key. -/
structure RawRepo where
  full_name : Option Str
  html_url : Option Str
  description : Option Str
  default_branch : Option Str
  stargazers_count : Option Nat
  language : Option Str
  deriving DecidableEq, Repr

/-- One item of a result page: its `repository` field
(`item.get("repository", {})`); `none` models a missing or empty
`repository` object, for which every nested `get` yields its default. -/
abbrev Item := Option RawRepo

/-- The repository record built at lines 130-137 of the source. -/
structure Record where
  url : Option Str
  full_name : Str
  description : Str
  default_branch : Str
  stars : Nat
  language : Str
  deriving DecidableEq, Repr

/-- Lines 130-137: the dictionary stored into `repos[repo_full_name]`. -/
def mkRecord (fn : Str) (r : RawRepo) : Record where
  url := r.html_url
  full_name := fn
  description := r.description.getD []
  default_branch := r.default_branch.getD (strL "main")
  stars := r.stargazers_count.getD 0
  language := r.language.getD []

/-- The accumulating `repos` dictionary, modelled as an insertion-ordered
association list (Python dicts preserve insertion order). -/
abbrev RepoMap := List (Str × Record)

/-- Lines 126-141: the inner `for item in items` loop.  An item is added
when its repository's `full_name` is truthy (present and non-empty) and
not yet a key of `repos`; after an addition that reaches `max_repos` the
loop breaks. -/
def processItems (maxRepos : Nat) : List Item → RepoMap → RepoMap
  | [], repos => repos
  | item :: rest, repos =>
    match item with
    | none => processItems maxRepos rest repos
    | some r =>
      match r.full_name with
      | none => processItems maxRepos rest repos
      | some fn =>
        if fn.isEmpty || repos.any (fun p => p.1 == fn) then
          processItems maxRepos rest repos
        else
          let repos' := repos ++ [(fn, mkRecord fn r)]
          if maxRepos ≤ repos'.length then repos'
          else processItems maxRepos rest repos'

/-- Lines 105-147: the `while page <= max_pages and len(repos) < max_repos`
pagination loop.  The first argument counts the pages that may still be
requested (`max_pages - page + 1`), so the guard `page <= max_pages` is
the pattern `remaining + 1`; the returned number is the count of pages
actually requested (the loop breaks inside the body after requesting
`page`, while a failed guard means the last request was page `page - 1`).
A `none` page models the `except Exception ... break` at lines 110-112:
the request raised, the error is printed, and pagination stops with the
repositories accumulated so far.  An empty page models lines 121-123. -/
def searchGo (pages : Nat → Option (List Item)) (maxRepos : Nat) :
    Nat → Nat → RepoMap → RepoMap × Nat
  | 0, page, repos => (repos, page - 1)
  | remaining + 1, page, repos =>
    if repos.length < maxRepos then
      match pages page with
      | none => (repos, page)
      | some items =>
        if items.isEmpty then (repos, page)
        else searchGo pages maxRepos remaining (page + 1) (processItems maxRepos items repos)
    else (repos, page - 1)

/-- `GitHubSearcher.search_repos_with_cook_files` (lines 85-150): runs the
pagination loop from page 1 with an empty dictionary and returns
`list(repos.values())` together with the number of pages requested. -/
def searchRepos (pages : Nat → Option (List Item)) (maxRepos maxPages : Nat) :
    List Record × Nat :=
  let (al, n) := searchGo pages maxRepos maxPages 1 []
  (al.map Prod.snd, n)

/-- Spec-side deduplication, written from the spec's words for claim C5:
scan the result items in order; the first occurrence of a repository
(identified by `full_name`) wins and is appended in first-seen order;
later occurrences of the same repository are ignored.  No capacity limit. -/
def specDedup : List Item → RepoMap → RepoMap
  | [], acc => acc
  | item :: rest, acc =>
    match item with
    | none => specDedup rest acc
    | some r =>
      match r.full_name with
      | none => specDedup rest acc
      | some fn =>
        if fn.isEmpty || acc.any (fun p => p.1 == fn) then specDedup rest acc
        else specDedup rest (acc ++ [(fn, mkRecord fn r)])

/-! ## The ConfigStore (`FeedManager`, lines 153-279) -/

/-- One entry of the `feeds:` sequence, i.e. one element of
`config["feeds"]`.  Each field models `feed.get(key)`; `none` stands for
a missing key, so `feed.get("enabled", True)` is `enabled.getD true`,
`feed.get("tags", [])` is `tags.getD []`, and so on.  (A key that is
present with a YAML `null` value is not distinguished from a missing
key; for the free-text fields both hit the `None` branch of
`_escape_yaml_string`.) -/
structure Feed where
  url : Option Str
  title : Option Str
  feed_type : Option Str
  branch : Option Str
  enabled : Option Bool
  tags : Option (List Str)
  notes : Option Str
  added_by : Option Str
  added_at : Option Str
  deriving DecidableEq, Repr

/-- The parsed `feeds.yaml` document as `FeedManager.config` sees it:
its `version` key and its `feeds` key (`none` = key absent). -/
structure Config where
  version : Option Nat
  feeds : Option (List Feed)
  deriving DecidableEq, Repr

/-- Whitespace as stripped by `str.strip()` / `str.rstrip()`; lines in
this model never contain newline characters, so space and tab suffice. -/
def isWs (c : Char) : Bool := c = ' ' || c = '\t'

/-- Remove leading whitespace (`str.lstrip()`). -/
def lstripL : Str → Str
  | [] => []
  | c :: t => if isWs c then lstripL t else c :: t

/-- Remove trailing whitespace (`str.rstrip()`). -/
def rstripL : Str → Str
  | [] => []
  | c :: t =>
    let r := rstripL t
    if r.isEmpty && isWs c then [] else c :: r

/-- `str.strip()`: leading and trailing whitespace removed. -/
def stripL (s : Str) : Str := rstripL (lstripL s)

/-- `s.startswith(p)` on the `Str` model. -/
def hasPfx : Str → Str → Bool
  | [], _ => true
  | _ :: _, [] => false
  | p :: ps, c :: cs => c == p && hasPfx ps cs

/-- The decimal digits of a natural number, as written by a Python
f-string for an `int`. -/
def natDigits (n : Nat) : Str := (Nat.repr n).data

/-- `FeedManager._extract_header` (lines 167-179): collect the leading
lines whose stripped form is a comment or blank, each `rstrip`ped; the
loop breaks at the first other line (both the `version:` branch and the
final `else` branch break). -/
def extractHeader : List Str → List Str
  | [] => []
  | l :: ls =>
    let s := stripL l
    if hasPfx (strL "#") s || s.isEmpty then rstripL l :: extractHeader ls
    else []

/-- `FeedManager._extract_footer` (lines 181-194): once a line stripping
to `# Validation configuration` or `validation:` is seen, that line and
every later line are collected, `rstrip`ped. -/
def extractFooterAux : List Str → Bool → List Str
  | [], _ => []
  | l :: ls, inValidation =>
    let s := stripL l
    if hasPfx (strL "# Validation configuration") s || inValidation then
      rstripL l :: extractFooterAux ls true
    else if hasPfx (strL "validation:") s then
      rstripL l :: extractFooterAux ls true
    else extractFooterAux ls inValidation

/-- `_extract_footer` starts with `in_validation = False`. -/
def extractFooter (ls : List Str) : List Str := extractFooterAux ls false

/-- `FeedManager._escape_yaml_string` on a present string:
`s.replace('"', '\\"')`. -/
def escRepl : Str → Str
  | [] => []
  | c :: t => if c = '"' then '\\' :: '"' :: escRepl t else c :: escRepl t

/-- `FeedManager._escape_yaml_string` (lines 196-201): `None` becomes
the empty string, otherwise double quotes are backslash-escaped. -/
def escapeYamlString : Option Str → Str
  | none => []
  | some s => escRepl s

/-- Wrap a value in double quotes, as the f-strings of `save_config` do. -/
def quoteWrap (s : Str) : Str := '"' :: (s ++ ['"'])

/-- Line 223: `  - url: "{escaped url}"`. -/
def urlLine (f : Feed) : Str := strL "  - url: " ++ quoteWrap (escapeYamlString f.url)

/-- Line 224: `    title: "{escaped title}"`. -/
def titleLine (f : Feed) : Str := strL "    title: " ++ quoteWrap (escapeYamlString f.title)

/-- Line 225: `    feed_type: {value}`, unquoted and unescaped; a missing
key prints as Python's `None`. -/
def feedTypeLine (f : Feed) : Str :=
  strL "    feed_type: " ++ (match f.feed_type with | none => strL "None" | some s => s)

/-- Lines 228-230: the branch line is written only when `feed.get("branch")`
is truthy (present and non-empty), and its value is quoted but NOT passed
through `_escape_yaml_string`. -/
def branchLines (f : Feed) : List Str :=
  match f.branch with
  | none => []
  | some b => if b.isEmpty then [] else [strL "    branch: " ++ quoteWrap b]

/-- Line 232: `    enabled: {str(feed.get("enabled", True)).lower()}`. -/
def enabledLine (f : Feed) : Str :=
  strL "    enabled: " ++ (if f.enabled.getD true then strL "true" else strL "false")

/-- Lines 233-235: the `tags:` block. -/
def tagsLines (f : Feed) : List Str :=
  strL "    tags:" :: (f.tags.getD []).map (fun t => strL "      - " ++ t)

/-- Line 236: `    notes: "{escaped notes}"`. -/
def notesLine (f : Feed) : Str := strL "    notes: " ++ quoteWrap (escapeYamlString f.notes)

/-- Line 237: `    added_by: "{escaped added_by}"`. -/
def addedByLine (f : Feed) : Str :=
  strL "    added_by: " ++ quoteWrap (escapeYamlString f.added_by)

/-- Line 238: `    added_at: "{escaped added_at}"`. -/
def addedAtLine (f : Feed) : Str :=
  strL "    added_at: " ++ quoteWrap (escapeYamlString f.added_at)

/-- Lines 223-238: all lines written for one feed entry. -/
def feedLines (f : Feed) : List Str :=
  urlLine f :: titleLine f :: feedTypeLine f :: branchLines f
    ++ enabledLine f :: tagsLines f
    ++ [notesLine f, addedByLine f, addedAtLine f]

/-- Lines 240-242: every entry except the last is followed by one blank
line; this emits the second and later entries, each preceded by that
separator. -/
def sepBlocks : List Feed → List Str
  | [] => []
  | f :: fs => [] :: (feedLines f ++ sepBlocks fs)

/-- Lines 218-242: the whole `feeds` body; the comment
`  # GitHub repository feed` is written before the first entry only. -/
def feedsLines : List Feed → List Str
  | [] => []
  | f :: fs => strL "  # GitHub repository feed" :: (feedLines f ++ sepBlocks fs)

/-- `FeedManager.save_config` (lines 203-248), as the list of lines of the
file it writes: the stored header lines and one blank line (when the
header is non-empty), the `version:` line and a blank line, `feeds:`,
the entry blocks, and - when the stored footer is non-empty - three blank
lines followed by the footer lines.  Each `f.write` is modelled as the
one line it is meant to produce, so this is faithful to the written
bytes exactly when every stored line and interpolated field value is
line-break-free (`noLineBreak` below); theorems about re-reading the
saved file carry that condition. -/
def saveConfigLines (headerLines footerLines : List Str) (cfg : Config) : List Str :=
  (if headerLines.isEmpty then [] else headerLines ++ [[]])
    ++ (strL "version: " ++ natDigits (cfg.version.getD 1)) :: [] :: strL "feeds:"
    :: feedsLines (cfg.feeds.getD [])
    ++ (if footerLines.isEmpty then [] else [] :: [] :: [] :: footerLines)

/-- `FeedManager.is_feed_exists` (lines 250-253): some entry's `url` key
equals the given url (`feed.get("url") == repo_url`; the compared value
is `repo["url"]`, which can itself be a missing key's `None`). -/
def isFeedExists (cfg : Config) (repoUrl : Option Str) : Bool :=
  (cfg.feeds.getD []).any (fun f => f.url == repoUrl)

/-- Lines 261-271: the `new_feed` dictionary built by `add_feed`.
`title` is `repo["description"] or f"{repo['full_name']} recipes"`
(empty description falls back), `notes` embeds the star count, and
`added_at` is the supplied current date. -/
def mkNewFeed (r : Record) (addedBy today : Str) : Feed where
  url := r.url
  title := some (if r.description.isEmpty then r.full_name ++ strL " recipes" else r.description)
  feed_type := some (strL "github")
  branch := some r.default_branch
  enabled := some true
  tags := some [strL "cookbook", strL "github"]
  notes := some (strL "Found via GitHub search (⭐ " ++ natDigits r.stars ++ strL ")")
  added_by := some addedBy
  added_at := some today

/-- `FeedManager.add_feed` (lines 255-279): if an entry with the record's
url exists, return `False` with the document unchanged; otherwise create
the `feeds` list when the key is absent, append the new entry, and return
`True`. -/
def addFeed (cfg : Config) (r : Record) (addedBy today : Str) : Config × Bool :=
  if isFeedExists cfg r.url then (cfg, false)
  else ({ cfg with feeds := some (cfg.feeds.getD [] ++ [mkNewFeed r addedBy today]) }, true)

/-! ## The Orchestrator (`main`, lines 282-397)

Only the part after a successful search is modelled (token and config-file
checks at lines 322-333 precede any state of interest here).  The shuffled
list produced by `random.shuffle` is passed in as data, since randomness
has no place in the embedding; theorems quantify over all permutations. -/

/-- Python's `list.sort(key=lambda r: r["stars"], reverse=True)` is a
stable sort placing larger star counts first; `List.insertionSort` with
this order is such a stable sort. -/
def sortByStarsDesc (repos : List Record) : List Record :=
  List.insertionSort (fun a b => b.stars ≤ a.stars) repos

/-- Lines 358-370: either take the first `limit` of the shuffled list, or
sort descending by stars and take the top `limit`. -/
def selectRepos (randomize : Bool) (shuffled repos : List Record) (limit : Nat) :
    List Record :=
  if randomize then shuffled.take limit else (sortByStarsDesc repos).take limit

/-- Lines 374-384: the per-candidate loop.  In dry-run mode only
`is_feed_exists` is consulted and the would-add counter incremented; in
normal mode `add_feed` runs and its result drives the counter. -/
def processCandidates (dryRun : Bool) (addedBy today : Str) :
    List Record → Config → Nat → Config × Nat
  | [], cfg, count => (cfg, count)
  | r :: rest, cfg, count =>
    if dryRun then
      if isFeedExists cfg r.url then processCandidates dryRun addedBy today rest cfg count
      else processCandidates dryRun addedBy today rest cfg (count + 1)
    else
      let (cfg', added) := addFeed cfg r addedBy today
      processCandidates dryRun addedBy today rest cfg'
        (if added then count + 1 else count)

/-- The observable outcome of `main` from line 354 on: the process exit
status, the config file content written by `save_config` (`none` when the
file is not touched), the final in-memory document, and the counter. -/
structure MainOut where
  exitCode : Nat
  savedFile : Option (List Str)
  finalCfg : Config
  addedCount : Nat
  deriving DecidableEq, Repr

/-- Lines 354-397 of `main`: report and return (exit 0) when no
repositories were found; otherwise select, process each candidate, and
call `save_config` once iff not in dry-run mode and at least one entry
was added.  Every path here returns normally, hence exit status 0. -/
def runMain (repos : List Record) (headerLines footerLines : List Str) (cfg : Config)
    (limit : Nat) (randomize dryRun : Bool) (shuffled : List Record)
    (addedBy today : Str) : MainOut :=
  if repos.isEmpty then ⟨0, none, cfg, 0⟩
  else
    let sel := selectRepos randomize shuffled repos limit
    let (cfg', added) := processCandidates dryRun addedBy today sel cfg 0
    if !dryRun && 0 < added then
      ⟨0, some (saveConfigLines headerLines footerLines cfg'), cfg', added⟩
    else ⟨0, none, cfg', added⟩

/-! ## A conservative reader for saved documents

`FeedManager._load_config` delegates to `yaml.safe_load`, a third-party
library whose code is not part of this repository.  Modelled from the
spec: `load(path)` parses the structured configuration format (top-level
`version` and `feeds` keys, quoted free-text scalars with backslash
escapes, plain scalars for `feed_type` and tags, comments and blank lines
ignored).  The reader below accepts exactly the unambiguous fragment of
that format which `save_config` is meant to emit and rejects (returns
`none` for) anything whose interpretation could differ between YAML
implementations: unknown escape sequences, text after a closing quote,
plain scalars with special characters, and so on.  An empty block after
`tags:` or zero entries after `feeds:` denote YAML null and are read as a
missing key. -/

/-- Strip a (concrete) prefix from a line, failing on mismatch. -/
def dropPfx : Str → Str → Option Str
  | [], s => some s
  | _ :: _, [] => none
  | p :: ps, c :: cs => if c = p then dropPfx ps cs else none

/-- Scan the body of a double-quoted scalar after its opening quote.
The flag records a pending backslash.  Only the escapes `\"` and `\\`
are accepted; the value and the text after the closing quote are
returned. -/
def dqTailAux : Bool → Str → Option (Str × Str)
  | _, [] => none
  | true, d :: rest =>
    if d = '"' || d = '\\' then (dqTailAux false rest).map (fun p => (d :: p.1, p.2))
    else none
  | false, c :: rest =>
    if c = '"' then some ([], rest)
    else if c = '\\' then dqTailAux true rest
    else (dqTailAux false rest).map (fun p => (c :: p.1, p.2))

/-- Read a complete double-quoted scalar spanning the whole input: an
opening quote, a well-formed body, a closing quote, nothing after. -/
def dqAll (s : Str) : Option Str :=
  match s with
  | '"' :: rest =>
    match dqTailAux false rest with
    | some (v, r) => if r.isEmpty then some v else none
    | none => none
  | _ => none

/-- Read one `prefix: "value"` line. -/
def parseQ (pfx line : Str) : Option Str := (dropPfx pfx line).bind dqAll

/-- Characters a plain (unquoted) scalar may contain without any YAML
implementation reading it differently from the raw text. -/
def plainChar (c : Char) : Bool :=
  c.isAlphanum || c = '_' || c = '-' || c = '.' || c = '/' || c = '@' || c = '+'

/-- A plain scalar this reader accepts: non-empty, alphanumeric first
character, only unambiguous characters. -/
def plainOk : Str → Bool
  | [] => false
  | c :: cs => c.isAlphanum && (c :: cs).all plainChar

/-- Consume one quoted field line. -/
def popQ (pfx : Str) : List Str → Option (Str × List Str)
  | [] => none
  | l :: ls => (parseQ pfx l).map (fun v => (v, ls))

/-- Consume one plain-scalar field line. -/
def popPlain (pfx : Str) : List Str → Option (Str × List Str)
  | [] => none
  | l :: ls =>
    match dropPfx pfx l with
    | some v => if plainOk v then some (v, ls) else none
    | none => none

/-- Consume the optional quoted `branch:` line. -/
def popBranch : List Str → Option (Option Str × List Str)
  | [] => some (none, [])
  | l :: ls =>
    match dropPfx (strL "    branch: ") l with
    | none => some (none, l :: ls)
    | some r =>
      match dqAll r with
      | some b => some (some b, ls)
      | none => none

/-- Consume the `enabled:` line, whose value must be `true` or `false`. -/
def popEnabled : List Str → Option (Bool × List Str)
  | [] => none
  | l :: ls =>
    match dropPfx (strL "    enabled: ") l with
    | none => none
    | some v =>
      if v = strL "true" then some (true, ls)
      else if v = strL "false" then some (false, ls)
      else none

/-- Collect consecutive `      - tag` lines. -/
def takeTags : List Str → List Str × List Str
  | [] => ([], [])
  | l :: ls =>
    match dropPfx (strL "      - ") l with
    | some t =>
      if plainOk t then
        let p := takeTags ls
        (t :: p.1, p.2)
      else ([], l :: ls)
    | none => ([], l :: ls)

/-- Consume the `tags:` block; an empty block is YAML null, read as a
missing key. -/
def popTags : List Str → Option (Option (List Str) × List Str)
  | [] => none
  | l :: ls =>
    if l = strL "    tags:" then
      let p := takeTags ls
      some ((if p.1.isEmpty then none else some p.1), p.2)
    else none

/-- Read one feed entry block. -/
def parseFeedBlock (ls : List Str) : Option (Feed × List Str) := do
  let (u, ls) ← popQ (strL "  - url: ") ls
  let (t, ls) ← popQ (strL "    title: ") ls
  let (ft, ls) ← popPlain (strL "    feed_type: ") ls
  let (br, ls) ← popBranch ls
  let (en, ls) ← popEnabled ls
  let (tg, ls) ← popTags ls
  let (no, ls) ← popQ (strL "    notes: ") ls
  let (ab, ls) ← popQ (strL "    added_by: ") ls
  let (aa, ls) ← popQ (strL "    added_at: ") ls
  pure ({ url := some u, title := some t, feed_type := some ft, branch := br,
          enabled := some en, tags := tg, notes := some no, added_by := some ab,
          added_at := some aa }, ls)

/-- A line YAML ignores: blank, or a comment. -/
def isSkipLine (l : Str) : Bool :=
  let s := stripL l
  s.isEmpty || hasPfx (strL "#") s

/-- Drop ignored lines. -/
def skipLines (ls : List Str) : List Str := ls.dropWhile isSkipLine

/-- Read the feed entry blocks, separated by ignored lines.  The fuel
argument only serves termination; callers pass more than the number of
lines, which always suffices since each block consumes at least one
line. -/
def parseFeedsAux : Nat → List Str → Option (List Feed × List Str)
  | 0, _ => none
  | fuel + 1, ls =>
    match skipLines ls with
    | [] => some ([], [])
    | l :: ls' =>
      if hasPfx (strL "  - url: ") l then
        match parseFeedBlock (l :: ls') with
        | some (f, rest) => (parseFeedsAux fuel rest).map (fun p => (f :: p.1, p.2))
        | none => none
      else some ([], l :: ls')

/-- Consume the `version:` line (its value is not interpreted; the claims
settled against this reader only concern the entry list). -/
def popVersion : List Str → Option (Str × List Str)
  | [] => none
  | l :: ls => (dropPfx (strL "version: ") l).map (fun v => (v, ls))

/-- Consume the literal `feeds:` line. -/
def expectFeedsLine : List Str → Option (List Str)
  | [] => none
  | l :: ls => if l = strL "feeds:" then some ls else none

/-- Lines after the entry blocks that cannot change the reading of the
entries: blanks, comments, a top-level `validation:` key, or indented
lines that do not resemble a feed item. -/
def restOk (ls : List Str) : Bool :=
  ls.all (fun l =>
    let s := stripL l
    s.isEmpty || hasPfx (strL "#") s || hasPfx (strL "validation:") s ||
      (hasPfx (strL " ") l && !hasPfx (strL "  - url: ") l))

/-- The whole conservative reader for a saved document, returning the
value of its `feeds` key (`none` = key absent or null). -/
def parseSavedFeeds (lines : List Str) : Option (Option (List Feed)) := do
  let ls := skipLines lines
  let (_, ls) ← popVersion ls
  let ls := ls.dropWhile (fun l => (stripL l).isEmpty)
  let ls ← expectFeedsLine ls
  let (fs, rest) ← parseFeedsAux (ls.length + 1) ls
  if restOk rest then pure (if fs.isEmpty then none else some fs) else none

/-! ## Benign values

Conditions under which the emitted document is unambiguous: free text may
not contain backslashes (never escaped by `_escape_yaml_string`) or line
breaks (which would split the written line); the unescaped `branch` value
additionally may not contain a double quote. -/

/-- A character safe inside an escaped quoted scalar. -/
def textOkChar (c : Char) : Bool := !(c = '\\' || c = '\n' || c = '\r')

/-- Free text whose quote-escaped form reads back verbatim. -/
def textOk (s : Str) : Bool := s.all textOkChar

/-- A character safe inside the UNescaped quoted `branch` scalar. -/
def dqSafeChar (c : Char) : Bool := !(c = '"' || c = '\\' || c = '\n' || c = '\r')

/-- A value safe to write between quotes without escaping. -/
def dqSafe (s : Str) : Bool := s.all dqSafeChar

/-- A feed entry whose saved form reads back as the same entry: the
free-text keys are present with backslash-free values, `feed_type` is a
plain scalar, `branch` is absent or non-empty without quotes, `enabled`
is present, and `tags` is a non-empty list of plain scalars. -/
def feedBenign (f : Feed) : Bool :=
  (match f.url with | some s => textOk s | none => false) &&
  (match f.title with | some s => textOk s | none => false) &&
  (match f.feed_type with | some s => plainOk s | none => false) &&
  (match f.branch with | none => true | some b => !b.isEmpty && dqSafe b) &&
  f.enabled.isSome &&
  (match f.tags with | some ts => !ts.isEmpty && ts.all plainOk | none => false) &&
  (match f.notes with | some s => textOk s | none => false) &&
  (match f.added_by with | some s => textOk s | none => false) &&
  (match f.added_at with | some s => textOk s | none => false)

/-- Every entry of the document is benign. -/
def configBenign (cfg : Config) : Bool := (cfg.feeds.getD []).all feedBenign

/-- Header lines as `_extract_header` collects them: blank or comments,
and none of them triggering the footer collector. -/
def headerLineOk (l : Str) : Bool :=
  (hasPfx (strL "#") (stripL l) || (stripL l).isEmpty) &&
    !hasPfx (strL "# Validation configuration") (stripL l)

/-- Footer lines as `_extract_footer` collects them: the first line (when
any) is the trigger comment or the `validation:` key, and no line can be
mistaken for a feed item or a comment that restarts collection. -/
def footerOk : List Str → Bool
  | [] => true
  | l :: ls =>
    (hasPfx (strL "# Validation configuration") (stripL l) ||
      hasPfx (strL "validation:") (stripL l)) &&
    (l :: ls).all (fun m =>
      let s := stripL m
      s.isEmpty || hasPfx (strL "#") s || hasPfx (strL "validation:") s ||
        (hasPfx (strL " ") m && !hasPfx (strL "  - url: ") m))

/-! ## Generic helper lemmas -/

theorem dropPfx_append (p t : Str) : dropPfx p (p ++ t) = some t := by
  induction p with
  | nil => rfl
  | cons c cs ih => simp [dropPfx, ih]

theorem hasPfx_append (p t : Str) : hasPfx p (p ++ t) = true := by
  induction p with
  | nil => rfl
  | cons c cs ih => simp [hasPfx, ih]

theorem hasPfx_eq_true_iff (p s : Str) : hasPfx p s = true ↔ ∃ t, s = p ++ t := by
  induction p generalizing s with
  | nil => simp [hasPfx]
  | cons c cs ih =>
    cases s with
    | nil => simp [hasPfx]
    | cons d ds =>
      simp only [hasPfx, Bool.and_eq_true, beq_iff_eq, ih]
      constructor
      · rintro ⟨rfl, t, rfl⟩; exact ⟨t, rfl⟩
      · rintro ⟨t, ht⟩
        cases ht
        exact ⟨rfl, t, rfl⟩

theorem rstripL_cons_of_not_ws {c : Char} (t : Str) (h : isWs c = false) :
    rstripL (c :: t) = c :: rstripL t := by
  simp [rstripL, h]

/-! ## Claim theorems: the ConfigStore basics -/

/-- Claim C7: For every document state and record: if an entry with the
record's url already exists, `add_feed` returns false and leaves the
document unchanged; otherwise it appends exactly the one new entry and
returns true; and a second call with the same record finds the url
present and performs no mutation, so two calls append exactly one entry
in total. -/
theorem c7_add_idempotent (cfg : Config) (r : Record) (addedBy today : Str) :
    (isFeedExists cfg r.url = true → addFeed cfg r addedBy today = (cfg, false)) ∧
    (isFeedExists cfg r.url = false →
      addFeed cfg r addedBy today =
        ({ cfg with feeds := some (cfg.feeds.getD [] ++ [mkNewFeed r addedBy today]) }, true)) ∧
    addFeed (addFeed cfg r addedBy today).1 r addedBy today =
      ((addFeed cfg r addedBy today).1, false) := by
  refine ⟨fun h => by simp [addFeed, h], fun h => by simp [addFeed, h], ?_⟩
  by_cases h : isFeedExists cfg r.url = true
  · simp [addFeed, h]
  · have hex : isFeedExists
        ({ cfg with feeds := some (cfg.feeds.getD [] ++ [mkNewFeed r addedBy today]) } : Config)
        r.url = true := by
      simp [isFeedExists, mkNewFeed]
    simp only [addFeed, h, if_neg, Bool.not_eq_true] at *
    simp [addFeed, h, hex]

/-- Witness for C7 at a concrete document: the second identical add is a
no-op returning false. -/
theorem c7_add_idempotent_witness :
    addFeed (addFeed { version := some 1, feeds := some [] }
        { url := some (strL "u"), full_name := strL "a/b", description := [],
          default_branch := strL "main", stars := 3, language := [] }
        (strL "@bot") (strL "2024-01-01")).1
      { url := some (strL "u"), full_name := strL "a/b", description := [],
        default_branch := strL "main", stars := 3, language := [] }
      (strL "@bot") (strL "2024-01-01") =
    ((addFeed { version := some 1, feeds := some [] }
        { url := some (strL "u"), full_name := strL "a/b", description := [],
          default_branch := strL "main", stars := 3, language := [] }
        (strL "@bot") (strL "2024-01-01")).1, false) :=
  (c7_add_idempotent _ _ _ _).2.2

/-- Claim C9: If the search returns zero repositories, the orchestrator
reports and exits with status 0, the config file is not written
(`savedFile = none`), and the in-memory document is untouched. -/
theorem c9_no_repos (headerLines footerLines : List Str) (cfg : Config) (limit : Nat)
    (randomize dryRun : Bool) (shuffled : List Record) (addedBy today : Str) :
    runMain [] headerLines footerLines cfg limit randomize dryRun shuffled addedBy today =
      ⟨0, none, cfg, 0⟩ := rfl

/-- Claim C10: On a document without a `feeds` key, `is_feed_exists` is
false for every url, and `add_feed` creates the list, appends the new
entry as its single element, and returns true. -/
theorem c10_missing_feeds (cfg : Config) (h : cfg.feeds = none) (u : Option Str)
    (r : Record) (addedBy today : Str) :
    isFeedExists cfg u = false ∧
    addFeed cfg r addedBy today =
      ({ cfg with feeds := some [mkNewFeed r addedBy today] }, true) := by
  refine ⟨by simp [isFeedExists, h], ?_⟩
  simp [addFeed, isFeedExists, h]

/-- Witness for C10 on a concrete document with no `feeds` key. -/
theorem c10_missing_feeds_witness :
    isFeedExists { version := some 1, feeds := none } (some (strL "u")) = false ∧
    addFeed { version := some 1, feeds := none }
      { url := some (strL "u"), full_name := strL "a/b", description := [],
        default_branch := strL "main", stars := 3, language := [] }
      (strL "@bot") (strL "2024-01-01") =
      ({ version := some 1,
         feeds := some [mkNewFeed
            { url := some (strL "u"), full_name := strL "a/b", description := [],
              default_branch := strL "main", stars := 3, language := [] }
            (strL "@bot") (strL "2024-01-01")] }, true) :=
  c10_missing_feeds _ rfl _ _ _ _

/-! ## Claim theorems: the Searcher error policy (C1) -/

/-- Claim C1, counterexample. The claim asserts that a first-page request
failing with an authentication error makes the whole search fail as a
fatal error.  In the code, the `except Exception ... break` at lines
110-112 catches every request exception - the `HTTPError` raised for an
authentication failure included - on the first page just like on any
later page: the search returns the empty accumulation after the single
failed request, and `main` then takes the `if not repos:` branch at lines
354-356 and returns normally with exit status 0, never reaching the
fatal `except`/`sys.exit(1)` at lines 350-352. -/
theorem c1_counterexample :
    searchRepos (fun _ => none) 50 10 = ([], 1) ∧
    runMain (searchRepos (fun _ => none) 50 10).1 [] []
        { version := some 1, feeds := some [] } 10 false false []
        (strL "@bot") (strL "2024-01-01") =
      ⟨0, none, { version := some 1, feeds := some [] }, 0⟩ :=
  ⟨rfl, rfl⟩

/-- Claim C1, amended: A request failure on ANY page - the first included,
and whatever the exception, authentication errors included - aborts
pagination and returns the repositories accumulated so far without
raising; in particular a first-page failure yields the empty sequence,
after which the orchestrator reports "no repositories found" and exits
with status 0 instead of failing. -/
theorem c1_page_failure_amended :
    (∀ (pages : Nat → Option (List Item)) (maxRepos remaining page : Nat) (repos : RepoMap),
      repos.length < maxRepos → pages page = none →
      searchGo pages maxRepos (remaining + 1) page repos = (repos, page)) ∧
    (∀ (pages : Nat → Option (List Item)) (maxRepos maxPages : Nat),
      pages 1 = none → 0 < maxRepos → 0 < maxPages →
      searchRepos pages maxRepos maxPages = ([], 1)) ∧
    (∀ (headerLines footerLines : List Str) (cfg : Config) (limit : Nat)
        (randomize dryRun : Bool) (shuffled : List Record) (addedBy today : Str),
      runMain [] headerLines footerLines cfg limit randomize dryRun shuffled addedBy today =
        ⟨0, none, cfg, 0⟩) := by
  refine ⟨fun pages maxRepos remaining page repos hlen hfail => ?_,
          fun pages maxRepos maxPages hfail hr hp => ?_, fun _ _ _ _ _ _ _ _ _ => rfl⟩
  · simp [searchGo, hlen, hfail]
  · obtain ⟨mp, rfl⟩ : ∃ mp, maxPages = mp + 1 := ⟨maxPages - 1, by omega⟩
    simp [searchRepos, searchGo, hr, hfail]

/-- A concrete repository record used by several witnesses. -/
def recSample : Record :=
  { url := some (strL "https://github.com/a/b"), full_name := strL "a/b",
    description := [], default_branch := strL "main", stars := 3, language := [] }

/-- Witness for C1 (amended) at concrete inputs: a failure on page 3
returns the repository gathered on earlier pages, and a failure on
page 1 returns the empty list after one request. -/
theorem c1_page_failure_amended_witness :
    searchGo (fun p => if p ≤ 2 then some [] else none) 9 4 3 [(strL "a/b", recSample)] =
      ([(strL "a/b", recSample)], 3) ∧
    searchRepos (fun _ => none) 50 10 = ([], 1) :=
  ⟨c1_page_failure_amended.1 _ _ _ _ _ (by decide) (by decide),
   c1_page_failure_amended.2.1 _ _ _ rfl (by decide) (by decide)⟩

/-! ## Claim theorems: Searcher pagination bounds (C6) -/

theorem processItems_length_le (maxRepos : Nat) :
    ∀ (items : List Item) (repos : RepoMap), repos.length < maxRepos →
      (processItems maxRepos items repos).length ≤ maxRepos := by
  intro items
  induction items with
  | nil => intro repos h; exact Nat.le_of_lt h
  | cons item rest ih =>
    intro repos h
    match item with
    | none => exact ih repos h
    | some r =>
      match hfn : r.full_name with
      | none => simp only [processItems, hfn]; exact ih repos h
      | some fn =>
        simp only [processItems, hfn]
        by_cases hskip : (fn.isEmpty || repos.any (fun p => p.1 == fn)) = true
        · simp only [hskip, if_true]; exact ih repos h
        · simp only [hskip, if_false, Bool.false_eq_true]
          by_cases hcap : maxRepos ≤ (repos ++ [(fn, mkRecord fn r)]).length
          · simp only [hcap, if_true]
            simpa using h
          · simp only [hcap, if_false]
            exact ih _ (by omega)

theorem searchGo_spec (pages : Nat → Option (List Item)) (maxRepos maxPages : Nat) :
    ∀ (remaining page : Nat) (repos : RepoMap),
      page + remaining = maxPages + 1 → repos.length ≤ maxRepos →
      (searchGo pages maxRepos remaining page repos).1.length ≤ maxRepos ∧
      (searchGo pages maxRepos remaining page repos).2 ≤ maxPages ∧
      ((searchGo pages maxRepos remaining page repos).2 = maxPages ∨
        (searchGo pages maxRepos remaining page repos).1.length = maxRepos ∨
        pages (searchGo pages maxRepos remaining page repos).2 = none ∨
        pages (searchGo pages maxRepos remaining page repos).2 = some []) := by
  intro remaining
  induction remaining with
  | zero =>
    intro page repos hpage hlen
    simp only [searchGo]
    exact ⟨hlen, by omega, Or.inl (by omega)⟩
  | succ rem ih =>
    intro page repos hpage hlen
    by_cases hguard : repos.length < maxRepos
    · cases hp : pages page with
      | none =>
        simp only [searchGo, hguard, if_true, hp]
        exact ⟨hlen, by omega, Or.inr (Or.inr (Or.inl trivial))⟩
      | some items =>
        by_cases hempty : items.isEmpty = true
        · simp only [searchGo, hguard, if_true, hp, hempty]
          exact ⟨hlen, by omega, Or.inr (Or.inr (Or.inr (by rw [List.isEmpty_iff.mp hempty])))⟩
        · simp only [searchGo, hguard, if_true, hp, hempty, Bool.false_eq_true, if_false]
          exact ih (page + 1) _ (by omega) (processItems_length_le maxRepos items repos hguard)
    · simp only [searchGo, hguard, if_false]
      exact ⟨hlen, by omega, Or.inr (Or.inl (by omega))⟩

/-- Claim C6: For every target count, page budget and sequence of result
pages (all requests succeeding), the search requests at most `maxPages`
pages and returns at most `maxRepos` records, and it stops for one of
exactly three reasons: the page budget was exhausted, the target number
of unique repositories was reached, or the last requested page returned
no items. -/
theorem c6_stop_conditions (pages : Nat → Option (List Item)) (maxRepos maxPages : Nat)
    (hok : ∀ k, (pages k).isSome = true) :
    (searchRepos pages maxRepos maxPages).2 ≤ maxPages ∧
    (searchRepos pages maxRepos maxPages).1.length ≤ maxRepos ∧
    ((searchRepos pages maxRepos maxPages).2 = maxPages ∨
      (searchRepos pages maxRepos maxPages).1.length = maxRepos ∨
      pages (searchRepos pages maxRepos maxPages).2 = some []) := by
  have h := searchGo_spec pages maxRepos maxPages maxPages 1 [] (by omega) (by simp)
  have hlen : (searchRepos pages maxRepos maxPages).1.length =
      (searchGo pages maxRepos maxPages 1 []).1.length := by
    simp [searchRepos]
  have hsnd : (searchRepos pages maxRepos maxPages).2 =
      (searchGo pages maxRepos maxPages 1 []).2 := by
    simp [searchRepos]
  refine ⟨by rw [hsnd]; exact h.2.1, by rw [hlen]; exact h.1, ?_⟩
  rcases h.2.2 with h1 | h2 | h3 | h4
  · exact Or.inl (by rw [hsnd]; exact h1)
  · exact Or.inr (Or.inl (by rw [hlen]; exact h2))
  · have hsome := hok (searchGo pages maxRepos maxPages 1 []).2
    rw [h3] at hsome
    simp at hsome
  · exact Or.inr (Or.inr (by rw [hsnd]; exact h4))

/-- A concrete raw search-result repository used by witnesses. -/
def rawSample : RawRepo :=
  { full_name := some (strL "a/b"), html_url := some (strL "https://github.com/a/b"),
    description := none, default_branch := none, stargazers_count := some 3,
    language := none }

/-- Witness for C6: with every page non-empty and a budget of two pages,
the search requests at most two pages. -/
theorem c6_stop_conditions_witness :
    (searchRepos (fun _ => some [some rawSample]) 10 2).2 ≤ 2 :=
  (c6_stop_conditions _ 10 2 (fun _ => Option.isSome_some)).1

/-! ## Claim theorems: Searcher deduplication (C5) -/

theorem specDedup_prefix : ∀ (items : List Item) (acc : RepoMap), acc <+: specDedup items acc := by
  intro items
  induction items with
  | nil => intro acc; exact List.prefix_refl _
  | cons item rest ih =>
    intro acc
    cases item with
    | none => exact ih acc
    | some r =>
      cases hfn : r.full_name with
      | none => simp only [specDedup, hfn]; exact ih acc
      | some fn =>
        simp only [specDedup, hfn]
        by_cases hskip : (fn.isEmpty || acc.any (fun p => p.1 == fn)) = true
        · simp only [hskip, if_true]; exact ih acc
        · simp only [hskip, Bool.false_eq_true, if_false]
          exact (List.prefix_append acc _).trans (ih _)

theorem processItems_eq_take (maxRepos : Nat) :
    ∀ (items : List Item) (acc : RepoMap), acc.length < maxRepos →
      processItems maxRepos items acc = (specDedup items acc).take maxRepos := by
  intro items
  induction items with
  | nil =>
    intro acc h
    simp only [processItems, specDedup]
    exact (List.take_of_length_le (by omega)).symm
  | cons item rest ih =>
    intro acc h
    cases item with
    | none => simp only [processItems, specDedup]; exact ih acc h
    | some r =>
      cases hfn : r.full_name with
      | none => simp only [processItems, specDedup, hfn]; exact ih acc h
      | some fn =>
        simp only [processItems, specDedup, hfn]
        by_cases hskip : (fn.isEmpty || acc.any (fun p => p.1 == fn)) = true
        · simp only [hskip, if_true]; exact ih acc h
        · simp only [hskip, Bool.false_eq_true, if_false]
          by_cases hcap : maxRepos ≤ (acc ++ [(fn, mkRecord fn r)]).length
          · simp only [hcap, if_true]
            obtain ⟨t, ht⟩ := specDedup_prefix rest (acc ++ [(fn, mkRecord fn r)])
            have hlen : (acc ++ [(fn, mkRecord fn r)]).length = maxRepos := by
              simp only [List.length_append, List.length_singleton] at hcap ⊢
              omega
            rw [← ht, List.take_left' hlen]
          · simp only [hcap, if_false]
            exact ih _ (by simp at hcap ⊢; omega)

/-- The two invariants of the accumulating dictionary: its keys are
pairwise distinct, and each stored record's `full_name` is its key. -/
def goodMap (m : RepoMap) : Prop :=
  (m.map Prod.fst).Nodup ∧ ∀ p ∈ m, (Prod.snd p).full_name = p.1

theorem processItems_good (maxRepos : Nat) :
    ∀ (items : List Item) (m : RepoMap), goodMap m →
      goodMap (processItems maxRepos items m) := by
  intro items
  induction items with
  | nil => intro m hm; exact hm
  | cons item rest ih =>
    intro m hm
    cases item with
    | none => exact ih m hm
    | some r =>
      cases hfn : r.full_name with
      | none => simp only [processItems, hfn]; exact ih m hm
      | some fn =>
        simp only [processItems, hfn]
        by_cases hskip : (fn.isEmpty || m.any (fun p => p.1 == fn)) = true
        · simp only [hskip, if_true]; exact ih m hm
        · simp only [hskip, Bool.false_eq_true, if_false]
          have hnotin : fn ∉ m.map Prod.fst := by
            have hskip' : (fn.isEmpty || m.any (fun p => p.1 == fn)) = false :=
              Bool.eq_false_iff.mpr hskip
            rcases Bool.or_eq_false_iff.mp hskip' with ⟨_, hany⟩
            intro hmem
            obtain ⟨p, hp, hpeq⟩ := List.mem_map.mp hmem
            have := List.any_eq_false.mp hany p hp
            simp [hpeq] at this
          have hgood' : goodMap (m ++ [(fn, mkRecord fn r)]) := by
            constructor
            · rw [List.map_append]
              refine List.Nodup.append hm.1 (List.nodup_singleton _) ?_
              intro a ha hb
              simp only [List.map_cons, List.map_nil, List.mem_singleton] at hb
              exact hnotin (hb ▸ ha)
            · intro p hp
              rcases List.mem_append.mp hp with h1 | h2
              · exact hm.2 p h1
              · simp only [List.mem_singleton] at h2
                subst h2
                rfl
          by_cases hcap : maxRepos ≤ (m ++ [(fn, mkRecord fn r)]).length
          · simp only [hcap, if_true]; exact hgood'
          · simp only [hcap, if_false]; exact ih _ hgood'

theorem searchGo_good (pages : Nat → Option (List Item)) (maxRepos : Nat) :
    ∀ (remaining page : Nat) (m : RepoMap), goodMap m →
      goodMap (searchGo pages maxRepos remaining page m).1 := by
  intro remaining
  induction remaining with
  | zero => intro page m hm; exact hm
  | succ rem ih =>
    intro page m hm
    by_cases hguard : m.length < maxRepos
    · cases hp : pages page with
      | none => simp only [searchGo, hguard, if_true, hp]; exact hm
      | some items =>
        by_cases hempty : items.isEmpty = true
        · simp only [searchGo, hguard, if_true, hp, hempty]; exact hm
        · simp only [searchGo, hguard, if_true, hp, hempty, Bool.false_eq_true, if_false]
          exact ih (page + 1) _ (processItems_good maxRepos items m hm)
    · simp only [searchGo, hguard, if_false]; exact hm

/-- Claim C5: The search output never contains two records with the same
`full_name`; and the item-processing loop refines the spec-side
first-occurrence-wins deduplication (`specDedup`, which scans the items
in order, keeps the record built from the first occurrence of each
repository, ignores later occurrences, and appends in first-seen order):
it returns exactly the first `maxRepos` entries of that deduplication. -/
theorem c5_dedup_first_wins (pages : Nat → Option (List Item)) (maxRepos maxPages : Nat) :
    ((searchRepos pages maxRepos maxPages).1.map Record.full_name).Nodup ∧
    (∀ (items : List Item) (acc : RepoMap), acc.length < maxRepos →
      processItems maxRepos items acc = (specDedup items acc).take maxRepos) := by
  refine ⟨?_, fun items acc h => processItems_eq_take maxRepos items acc h⟩
  have hgood : goodMap (searchGo pages maxRepos maxPages 1 []).1 :=
    searchGo_good pages maxRepos maxPages 1 [] ⟨List.nodup_nil, by simp⟩
  have : (searchRepos pages maxRepos maxPages).1.map Record.full_name =
      (searchGo pages maxRepos maxPages 1 []).1.map Prod.fst := by
    simp only [searchRepos, List.map_map]
    exact List.map_congr_left (fun p hp => hgood.2 p hp)
  rw [this]
  exact hgood.1

/-- Witness for C5's refinement conjunct at a concrete page: two items
for the same repository produce one record, built from the first. -/
theorem c5_dedup_first_wins_witness :
    processItems 10 [some rawSample, some rawSample] [] =
      (specDedup [some rawSample, some rawSample] []).take 10 :=
  (c5_dedup_first_wins (fun _ => some []) 10 1).2 [some rawSample, some rawSample] []
    (by decide)

/-! ## Claim theorems: selection policy (C8) -/

/-- Claim C8: For every candidate list with pairwise-distinct star counts
and a limit within its length: non-randomized selection returns exactly
`limit` candidates, strictly descending by stars, all drawn from the
list, and every unselected candidate has strictly fewer stars than every
selected one (so the selection is exactly the `limit` highest);
randomized selection (quantified over every permutation the shuffle may
produce) returns exactly `limit` distinct candidates drawn from the
list. -/
theorem c8_selection (repos : List Record) (limit : Nat)
    (hstars : (repos.map Record.stars).Nodup) (hlim : limit ≤ repos.length)
    (shuffled : List Record) (hperm : shuffled.Perm repos) :
    ((selectRepos false shuffled repos limit).length = limit ∧
      (selectRepos false shuffled repos limit).Pairwise (fun a b => b.stars < a.stars) ∧
      (∀ x ∈ selectRepos false shuffled repos limit, x ∈ repos) ∧
      (∀ x ∈ selectRepos false shuffled repos limit, ∀ y ∈ repos,
        y ∉ selectRepos false shuffled repos limit → y.stars < x.stars)) ∧
    ((selectRepos true shuffled repos limit).length = limit ∧
      (selectRepos true shuffled repos limit).Nodup ∧
      ∀ x ∈ selectRepos true shuffled repos limit, x ∈ repos) := by
  haveI : IsTotal Record (fun a b => b.stars ≤ a.stars) :=
    ⟨fun a b => Nat.le_total b.stars a.stars⟩
  haveI : IsTrans Record (fun a b => b.stars ≤ a.stars) :=
    ⟨fun _ _ _ hab hbc => le_trans hbc hab⟩
  have hpermS : (sortByStarsDesc repos).Perm repos := List.perm_insertionSort _ repos
  have hsorted : List.Sorted (fun a b => b.stars ≤ a.stars) (sortByStarsDesc repos) :=
    List.sorted_insertionSort _ repos
  have hnodS : ((sortByStarsDesc repos).map Record.stars).Nodup :=
    ((hpermS.map Record.stars).nodup_iff).mpr hstars
  have hstrict : (sortByStarsDesc repos).Pairwise (fun a b => b.stars < a.stars) := by
    have h2 : (sortByStarsDesc repos).Pairwise (fun a b => a.stars ≠ b.stars) :=
      List.pairwise_map.mp hnodS
    exact (hsorted.and h2).imp (fun h => lt_of_le_of_ne h.1 (Ne.symm h.2))
  have hlenS : (sortByStarsDesc repos).length = repos.length := hpermS.length_eq
  have hsel : selectRepos false shuffled repos limit = (sortByStarsDesc repos).take limit := rfl
  have hrsel : selectRepos true shuffled repos limit = shuffled.take limit := rfl
  refine ⟨⟨?_, ?_, ?_, ?_⟩, ?_, ?_, ?_⟩
  · rw [hsel, List.length_take]; omega
  · rw [hsel]; exact hstrict.sublist (List.take_sublist _ _)
  · rw [hsel]
    intro x hx
    exact hpermS.subset ((List.take_sublist _ _).subset hx)
  · rw [hsel]
    intro x hx y hy hyn
    have hcross := (List.pairwise_append.mp
      ((List.take_append_drop limit (sortByStarsDesc repos)).symm ▸ hstrict)).2.2
    have hyS : y ∈ sortByStarsDesc repos := hpermS.mem_iff.mpr hy
    rcases List.mem_append.mp ((List.take_append_drop limit (sortByStarsDesc repos)) ▸ hyS)
      with h1 | h2
    · exact absurd h1 hyn
    · exact hcross x hx y h2
  · rw [hrsel, List.length_take, hperm.length_eq]; omega
  · rw [hrsel]
    exact ((hperm.nodup_iff).mpr (hstars.of_map)).sublist (List.take_sublist _ _)
  · rw [hrsel]
    intro x hx
    exact hperm.subset ((List.take_sublist _ _).subset hx)

/-- Three concrete candidates with distinct star counts. -/
def recB : Record := { recSample with full_name := strL "b/b", stars := 7 }

/-- Another concrete candidate. -/
def recC : Record := { recSample with full_name := strL "c/c", stars := 5 }

/-- Witness for C8 at three candidates with stars 3, 7, 5 and limit 2:
non-randomized selection picks the two highest in descending order, and
a shuffled selection returns two distinct members. -/
theorem c8_selection_witness :
    (selectRepos false [recC, recB, recSample] [recSample, recB, recC] 2).length = 2 ∧
    (selectRepos true [recC, recB, recSample] [recSample, recB, recC] 2).Nodup :=
  ⟨(c8_selection [recSample, recB, recC] 2 (by decide) (by decide)
      [recC, recB, recSample] (by decide)).1.1,
   (c8_selection [recSample, recB, recC] 2 (by decide) (by decide)
      [recC, recB, recSample] (by decide)).2.2.1⟩

/-! ## Quoted-scalar lemmas (C3, C2) -/

theorem escapeYamlString_eq (o : Option Str) : escapeYamlString o = escRepl (o.getD []) := by
  cases o <;> rfl

theorem dqTailAux_escRepl (s : Str) (hs : textOk s = true) (r : Str) :
    dqTailAux false (escRepl s ++ '"' :: r) = some (s, r) := by
  induction s with
  | nil => simp [escRepl, dqTailAux]
  | cons c cs ih =>
    rw [textOk, List.all_cons, Bool.and_eq_true] at hs
    obtain ⟨hc, hcs⟩ := hs
    have hcb : ¬c = '\\' := by
      intro h
      subst h
      simp [textOkChar] at hc
    by_cases hq : c = '"'
    · subst hq
      simp [escRepl, dqTailAux, ih hcs]
    · simp [escRepl, hq, dqTailAux, hcb, ih hcs]

theorem dqTailAux_safe (s : Str) (hs : dqSafe s = true) (r : Str) :
    dqTailAux false (s ++ '"' :: r) = some (s, r) := by
  induction s with
  | nil => simp [dqTailAux]
  | cons c cs ih =>
    rw [dqSafe, List.all_cons, Bool.and_eq_true] at hs
    obtain ⟨hc, hcs⟩ := hs
    have hcq : ¬c = '"' := by
      intro h
      subst h
      simp [dqSafeChar] at hc
    have hcb : ¬c = '\\' := by
      intro h
      subst h
      simp [dqSafeChar] at hc
    simp [dqTailAux, hcq, hcb, ih hcs]

theorem dqAll_quoteWrap_escRepl (s : Str) (hs : textOk s = true) :
    dqAll (quoteWrap (escRepl s)) = some s := by
  have : quoteWrap (escRepl s) = '"' :: (escRepl s ++ '"' :: []) := by
    simp [quoteWrap]
  rw [this]
  simp [dqAll, dqTailAux_escRepl s hs]

theorem dqAll_quoteWrap_safe (s : Str) (hs : dqSafe s = true) :
    dqAll (quoteWrap s) = some s := by
  have : quoteWrap s = '"' :: (s ++ '"' :: []) := by
    simp [quoteWrap]
  rw [this]
  simp [dqAll, dqTailAux_safe s hs]

theorem parseQ_append_escRepl (pfx s : Str) (hs : textOk s = true) :
    parseQ pfx (pfx ++ quoteWrap (escRepl s)) = some s := by
  rw [parseQ, dropPfx_append]
  exact dqAll_quoteWrap_escRepl s hs

/-! ## Claim theorems: quote escaping in `save_config` (C3) -/

/-- A concrete feed entry whose `branch` value contains a double quote. -/
def feedWithQuotedBranch : Feed :=
  { url := some (strL "https://github.com/a/b"), title := some (strL "t"),
    feed_type := some (strL "github"), branch := some (strL "a\"b"),
    enabled := some true, tags := some [strL "cookbook"],
    notes := some (strL "n"), added_by := some (strL "@bot"),
    added_at := some (strL "2024-01-01") }

/-- Claim C3, counterexample. The claim says every free-text field - branch
included - has its embedded double quotes escaped, making every emitted
quoted field well-formed for any value.  Line 230 writes the branch raw:
for branch value `a"b` the emitted line is `    branch: "a"b"`, which is
not a well-formed quoted scalar (text remains after the closing quote),
so the conservative reader rejects it. -/
theorem c3_counterexample :
    branchLines feedWithQuotedBranch = [strL "    branch: \"a\"b\""] ∧
    parseQ (strL "    branch: ") (strL "    branch: \"a\"b\"") = none := by
  constructor <;> rfl

/-- Claim C3, amended: `save_config` escapes embedded double quotes in the
five fields it routes through `_escape_yaml_string` - url, title, notes,
added_by, added_at - and each such emitted quoted field is well-formed
(it reads back as exactly the original value) whenever the value
contains no backslash and no line break; the `branch` field is written
WITHOUT escaping, so its quoted line is well-formed only when the branch
value itself contains no double quote, backslash or line break. -/
theorem c3_escape_amended (f : Feed)
    (hu : textOk (f.url.getD []) = true) (ht : textOk (f.title.getD []) = true)
    (hn : textOk (f.notes.getD []) = true) (hb : textOk (f.added_by.getD []) = true)
    (ha : textOk (f.added_at.getD []) = true)
    (hbr : dqSafe (f.branch.getD []) = true) :
    parseQ (strL "  - url: ") (urlLine f) = some (f.url.getD []) ∧
    parseQ (strL "    title: ") (titleLine f) = some (f.title.getD []) ∧
    parseQ (strL "    notes: ") (notesLine f) = some (f.notes.getD []) ∧
    parseQ (strL "    added_by: ") (addedByLine f) = some (f.added_by.getD []) ∧
    parseQ (strL "    added_at: ") (addedAtLine f) = some (f.added_at.getD []) ∧
    ∀ l ∈ branchLines f, parseQ (strL "    branch: ") l = some (f.branch.getD []) := by
  refine ⟨?_, ?_, ?_, ?_, ?_, ?_⟩
  · rw [urlLine, escapeYamlString_eq]; exact parseQ_append_escRepl _ _ hu
  · rw [titleLine, escapeYamlString_eq]; exact parseQ_append_escRepl _ _ ht
  · rw [notesLine, escapeYamlString_eq]; exact parseQ_append_escRepl _ _ hn
  · rw [addedByLine, escapeYamlString_eq]; exact parseQ_append_escRepl _ _ hb
  · rw [addedAtLine, escapeYamlString_eq]; exact parseQ_append_escRepl _ _ ha
  · intro l hl
    cases hbrv : f.branch with
    | none => rw [branchLines, hbrv] at hl; simp at hl
    | some b =>
      rw [branchLines, hbrv] at hl
      by_cases hbe : b.isEmpty = true
      · simp [hbe] at hl
      · simp only [hbe, Bool.false_eq_true, if_false, List.mem_singleton] at hl
        subst hl
        rw [hbrv] at hbr
        rw [parseQ, dropPfx_append]
        simpa using dqAll_quoteWrap_safe b (by simpa using hbr)

/-- A concrete benign feed whose title contains a double quote. -/
def feedQuotedTitle : Feed :=
  { url := some (strL "https://github.com/a/b"), title := some (strL "A \"nice\" repo"),
    feed_type := some (strL "github"), branch := some (strL "main"),
    enabled := some true, tags := some [strL "cookbook"],
    notes := some (strL "n"), added_by := some (strL "@bot"),
    added_at := some (strL "2024-01-01") }

/-- Witness for C3 (amended) at a feed whose title contains a quote. -/
theorem c3_escape_amended_witness :
    parseQ (strL "    title: ") (titleLine feedQuotedTitle) =
      some (strL "A \"nice\" repo") :=
  ((c3_escape_amended feedQuotedTitle (by decide) (by decide) (by decide) (by decide)
    (by decide) (by decide)).2.1).trans (by decide)

/-! ## Field-level reading lemmas for saved entry blocks (C2) -/

theorem popQ_cons (pfx v : Str) (ls : List Str) (hv : textOk v = true) :
    popQ pfx ((pfx ++ quoteWrap (escRepl v)) :: ls) = some (v, ls) := by
  simp [popQ, parseQ_append_escRepl pfx v hv]

theorem popPlain_cons (pfx v : Str) (ls : List Str) (hv : plainOk v = true) :
    popPlain pfx ((pfx ++ v) :: ls) = some (v, ls) := by
  simp [popPlain, dropPfx_append, hv]

theorem popBranch_cons_branch (b : Str) (ls : List Str) (hb : dqSafe b = true) :
    popBranch ((strL "    branch: " ++ quoteWrap b) :: ls) = some (some b, ls) := by
  simp [popBranch, dropPfx_append, dqAll_quoteWrap_safe b hb]

theorem popBranch_cons_enabled (x : Str) (ls : List Str) :
    popBranch ((strL "    enabled: " ++ x) :: ls) =
      some (none, (strL "    enabled: " ++ x) :: ls) := by
  have h : dropPfx (strL "    branch: ") (strL "    enabled: " ++ x) = none := rfl
  simp [popBranch, h]

theorem popEnabled_cons (b : Bool) (ls : List Str) :
    popEnabled ((strL "    enabled: " ++ (if b then strL "true" else strL "false")) :: ls) =
      some (b, ls) := by
  cases b
  · have h : dropPfx (strL "    enabled: ") (strL "    enabled: " ++ strL "false") =
        some (strL "false") := dropPfx_append _ _
    simp only [Bool.false_eq_true, if_false, popEnabled, h]
    rw [if_neg (by decide)]
    simp
  · have h : dropPfx (strL "    enabled: ") (strL "    enabled: " ++ strL "true") =
        some (strL "true") := dropPfx_append _ _
    simp only [if_true, popEnabled, h]

theorem takeTags_map (ts : List Str) (h : ∀ t ∈ ts, plainOk t = true) (x : Str)
    (ls : List Str) :
    takeTags ((ts.map (fun t => strL "      - " ++ t)) ++ (strL "    notes: " ++ x) :: ls) =
      (ts, (strL "    notes: " ++ x) :: ls) := by
  induction ts with
  | nil =>
    have hmis : dropPfx (strL "      - ") (strL "    notes: " ++ x) = none := rfl
    simp [takeTags, hmis]
  | cons t ts ih =>
    have ht := h t (List.mem_cons_self t ts)
    have hrest : ∀ u ∈ ts, plainOk u = true := fun u hu => h u (List.mem_cons_of_mem t hu)
    simp [takeTags, dropPfx_append, ht, ih hrest]

theorem popTags_block (ts : List Str) (hne : ts.isEmpty = false)
    (h : ∀ t ∈ ts, plainOk t = true) (x : Str) (ls : List Str) :
    popTags (strL "    tags:" :: ((ts.map (fun t => strL "      - " ++ t)) ++
        (strL "    notes: " ++ x) :: ls)) =
      some (some ts, (strL "    notes: " ++ x) :: ls) := by
  simp [popTags, takeTags_map ts h x ls, hne]

theorem parseFeedBlock_of_benign (f : Feed) (hf : feedBenign f = true) (tail : List Str) :
    parseFeedBlock (feedLines f ++ tail) = some (f, tail) := by
  obtain ⟨u, t, ft, br, en, tg, no, ab, aa⟩ := f
  cases u with
  | none => simp [feedBenign] at hf
  | some vu =>
  cases t with
  | none => simp [feedBenign] at hf
  | some vt =>
  cases ft with
  | none => simp [feedBenign] at hf
  | some vf =>
  cases en with
  | none => simp [feedBenign] at hf
  | some ve =>
  cases tg with
  | none => simp [feedBenign] at hf
  | some vg =>
  cases no with
  | none => simp [feedBenign] at hf
  | some vn =>
  cases ab with
  | none => simp [feedBenign] at hf
  | some va =>
  cases aa with
  | none => simp [feedBenign] at hf
  | some vd =>
  simp only [feedBenign, Bool.and_eq_true] at hf
  obtain ⟨⟨⟨⟨⟨⟨⟨⟨hu, ht⟩, hft⟩, hbr⟩, hen⟩, htg⟩, hno⟩, hab⟩, haa⟩ := hf
  obtain ⟨hgne, hgall⟩ := htg
  have hgall' : ∀ x ∈ vg, plainOk x = true := by
    intro x hx
    exact List.all_eq_true.mp hgall x hx
  have hgne' : vg.isEmpty = false := by
    cases vg with
    | nil => simp at hgne
    | cons a l => rfl
  cases br with
  | none =>
    simp only [feedLines, urlLine, titleLine, feedTypeLine, branchLines, enabledLine,
      tagsLines, notesLine, addedByLine, addedAtLine, escapeYamlString, Option.getD_some,
      List.nil_append, List.cons_append, List.append_assoc]
    simp only [parseFeedBlock, popQ_cons _ _ _ hu, popQ_cons _ _ _ ht,
      popPlain_cons _ _ _ hft, popBranch_cons_enabled, popEnabled_cons,
      popTags_block vg hgne' hgall', popQ_cons _ _ _ hno, popQ_cons _ _ _ hab,
      popQ_cons _ _ _ haa, Option.bind_eq_bind, Option.some_bind]
    rfl
  | some vb =>
    have hbr' : (!vb.isEmpty && dqSafe vb) = true := by simpa using hbr
    rw [Bool.and_eq_true] at hbr'
    obtain ⟨hbne, hbsafe⟩ := hbr'
    have hbne' : vb.isEmpty = false := by simpa using hbne
    simp only [feedLines, urlLine, titleLine, feedTypeLine, branchLines, enabledLine,
      tagsLines, notesLine, addedByLine, addedAtLine, escapeYamlString, Option.getD_some,
      hbne', Bool.false_eq_true, if_false, List.nil_append, List.cons_append,
      List.append_assoc]
    simp only [parseFeedBlock, popQ_cons _ _ _ hu, popQ_cons _ _ _ ht,
      popPlain_cons _ _ _ hft, popBranch_cons_branch vb _ hbsafe, popEnabled_cons,
      popTags_block vg hgne' hgall', popQ_cons _ _ _ hno, popQ_cons _ _ _ hab,
      popQ_cons _ _ _ haa, Option.bind_eq_bind, Option.some_bind]
    rfl

/-! ## Reading back whole saved documents (C2) -/

theorem isSkipLine_url_append (y : Str) : isSkipLine (strL "  - url: " ++ y) = false := by
  have h1 : lstripL (strL "  - url: " ++ y) = '-' :: (strL " url: " ++ y) := rfl
  have h2 : rstripL ('-' :: (strL " url: " ++ y)) = '-' :: rstripL (strL " url: " ++ y) :=
    rstripL_cons_of_not_ws _ rfl
  have h3 : strL "#" = ['#'] := rfl
  simp [isSkipLine, stripL, h1, h2, h3, hasPfx]

theorem skipLines_cons_true (l : Str) (ls : List Str) (h : isSkipLine l = true) :
    skipLines (l :: ls) = skipLines ls := by
  simp [skipLines, List.dropWhile_cons, h]

theorem skipLines_cons_false (l : Str) (ls : List Str) (h : isSkipLine l = false) :
    skipLines (l :: ls) = l :: ls := by
  simp [skipLines, List.dropWhile_cons, h]

theorem skipLines_append_all (ls : List Str) (r : List Str) (h : ls.all isSkipLine = true) :
    skipLines (ls ++ r) = skipLines r := by
  induction ls with
  | nil => rfl
  | cons l t ih =>
    rw [List.all_cons, Bool.and_eq_true] at h
    rw [List.cons_append, skipLines_cons_true _ _ h.1]
    exact ih h.2

/-- The lines following the entry blocks must not start with what looks
like a further entry. -/
def noUrlHead : List Str → Prop
  | [] => True
  | l :: _ => hasPfx (strL "  - url: ") l = false

theorem parseFeedsAux_step (f : Feed) (hf : feedBenign f = true) (c : Str)
    (hc : isSkipLine c = true) (rest : List Str) (k : Nat) (fsr : List Feed)
    (tailr : List Str) (hrec : parseFeedsAux k rest = some (fsr, tailr)) :
    parseFeedsAux (k + 1) (c :: (feedLines f ++ rest)) = some (f :: fsr, tailr) := by
  obtain ⟨T, hfl⟩ : ∃ T, feedLines f = urlLine f :: T := by
    refine ⟨titleLine f :: feedTypeLine f ::
      (branchLines f ++ enabledLine f :: tagsLines f ++
        [notesLine f, addedByLine f, addedAtLine f]), ?_⟩
    simp only [feedLines, List.cons_append]
  have hurl : isSkipLine (urlLine f) = false :=
    isSkipLine_url_append (quoteWrap (escapeYamlString f.url))
  have hpfx : hasPfx (strL "  - url: ") (urlLine f) = true :=
    hasPfx_append _ (quoteWrap (escapeYamlString f.url))
  have hskip : skipLines (c :: (feedLines f ++ rest)) = urlLine f :: (T ++ rest) := by
    rw [skipLines_cons_true _ _ hc, hfl, List.cons_append]
    exact skipLines_cons_false _ _ hurl
  have hblock : parseFeedBlock (urlLine f :: (T ++ rest)) = some (f, rest) := by
    rw [← List.cons_append, ← hfl]
    exact parseFeedBlock_of_benign f hf rest
  simp only [parseFeedsAux, hskip, hpfx, if_true, hblock, hrec]
  rfl

theorem parseFeedsAux_blocks (tailPart : List Str) (htail : noUrlHead (skipLines tailPart)) :
    ∀ (fs : List Feed) (fuel : Nat), fs.all feedBenign = true → fs.length + 1 ≤ fuel →
      parseFeedsAux fuel (sepBlocks fs ++ tailPart) = some (fs, skipLines tailPart) ∧
      parseFeedsAux fuel (feedsLines fs ++ tailPart) = some (fs, skipLines tailPart) := by
  intro fs
  induction fs with
  | nil =>
    intro fuel _ hfuel
    obtain ⟨k, rfl⟩ : ∃ k, fuel = k + 1 := ⟨fuel - 1, by omega⟩
    constructor <;>
    · simp only [sepBlocks, feedsLines, List.nil_append, parseFeedsAux]
      cases hs : skipLines tailPart with
      | nil => rfl
      | cons l ls' =>
        rw [hs] at htail
        simp only [noUrlHead] at htail
        simp [htail]
  | cons f fs' ih =>
    intro fuel hben hfuel
    obtain ⟨k, rfl⟩ : ∃ k, fuel = k + 1 := ⟨fuel - 1, by omega⟩
    rw [List.all_cons, Bool.and_eq_true] at hben
    have hrec := (ih k hben.2 (by simp at hfuel ⊢; omega)).1
    constructor
    · rw [sepBlocks, List.cons_append, List.append_assoc]
      exact parseFeedsAux_step f hben.1 [] rfl _ k fs' _ hrec
    · rw [feedsLines, List.cons_append, List.append_assoc]
      exact parseFeedsAux_step f hben.1 (strL "  # GitHub repository feed") rfl _ k fs' _ hrec

theorem isSkipLine_head_false (c : Char) (t : Str) (hws : isWs c = false)
    (hc : (c == '#') = false) : isSkipLine (c :: t) = false := by
  have h2 : rstripL (c :: t) = c :: rstripL t := rstripL_cons_of_not_ws _ hws
  have h3 : strL "#" = ['#'] := rfl
  simp [isSkipLine, stripL, lstripL, hws, h2, h3, hasPfx, hc]

theorem skipLines_sub (l : List Str) : ∀ x ∈ skipLines l, x ∈ l := by
  intro x hx
  exact (List.dropWhile_suffix isSkipLine).subset hx

theorem skipLines_head_not (l : List Str) :
    ∀ x xs, skipLines l = x :: xs → isSkipLine x = false := by
  induction l with
  | nil => intro x xs h; cases h
  | cons a t ih =>
    intro x xs h
    by_cases ha : isSkipLine a = true
    · rw [skipLines_cons_true _ _ ha] at h
      exact ih x xs h
    · have ha' : isSkipLine a = false := Bool.eq_false_iff.mpr ha
      rw [skipLines_cons_false _ _ ha'] at h
      cases h
      exact ha'

theorem hasPfx_validation_of_url (x : Str) (h : hasPfx (strL "  - url: ") x = true) :
    hasPfx (strL "validation:") (stripL x) = false := by
  obtain ⟨y, rfl⟩ := (hasPfx_eq_true_iff _ _).mp h
  have h1 : lstripL (strL "  - url: " ++ y) = '-' :: (strL " url: " ++ y) := rfl
  have h2 : rstripL ('-' :: (strL " url: " ++ y)) = '-' :: rstripL (strL " url: " ++ y) :=
    rstripL_cons_of_not_ws _ rfl
  have h3 : strL "validation:" = 'v' :: strL "alidation:" := rfl
  simp [stripL, h1, h2, h3, hasPfx]

/-- The predicate `restOk` checks on each trailing line. -/
def restLineOk (l : Str) : Bool :=
  let s := stripL l
  s.isEmpty || hasPfx (strL "#") s || hasPfx (strL "validation:") s ||
    (hasPfx (strL " ") l && !hasPfx (strL "  - url: ") l)

theorem restOk_eq_all (ls : List Str) : restOk ls = ls.all restLineOk := rfl

theorem footer_tail_ok (footerLines : List Str) (hf : footerOk footerLines = true) :
    noUrlHead (skipLines (if footerLines.isEmpty then [] else [] :: [] :: [] :: footerLines)) ∧
    restOk (skipLines (if footerLines.isEmpty then [] else [] :: [] :: [] :: footerLines)) =
      true := by
  cases footerLines with
  | nil => exact ⟨trivial, rfl⟩
  | cons l ls =>
    have hred : skipLines ([] :: [] :: [] :: (l :: ls)) = skipLines (l :: ls) := by
      rw [skipLines_cons_true ([]) _ rfl, skipLines_cons_true ([]) _ rfl,
        skipLines_cons_true ([]) _ rfl]
    simp only [List.isEmpty_cons, Bool.false_eq_true, if_false, hred]
    rw [footerOk, Bool.and_eq_true] at hf
    have hall : ∀ x ∈ l :: ls, restLineOk x = true := by
      intro x hx
      exact List.all_eq_true.mp hf.2 x hx
    constructor
    · cases hs : skipLines (l :: ls) with
      | nil => exact trivial
      | cons x xs =>
        simp only [noUrlHead]
        have hxmem : x ∈ l :: ls := skipLines_sub _ x (hs ▸ List.mem_cons_self x xs)
        have hP := hall x hxmem
        have hns : isSkipLine x = false := skipLines_head_not _ x xs hs
        by_cases hurl : hasPfx (strL "  - url: ") x = true
        · rw [restLineOk] at hP
          simp only [isSkipLine, Bool.or_eq_false_iff] at hns
          simp only [hns.1, hns.2, hurl, Bool.false_or, Bool.not_true, Bool.and_false,
            Bool.or_false] at hP
          rw [hasPfx_validation_of_url x hurl] at hP
          cases hP
        · exact Bool.eq_false_iff.mpr hurl
    · rw [restOk_eq_all, List.all_eq_true]
      intro x hx
      exact hall x (skipLines_sub _ x hx)

theorem length_le_blocks (fs : List Feed) :
    fs.length ≤ (sepBlocks fs).length ∧ fs.length ≤ (feedsLines fs).length := by
  induction fs with
  | nil => simp [sepBlocks, feedsLines]
  | cons f fs' ih =>
    have h1 : 1 ≤ (feedLines f).length := by
      obtain ⟨T, hfl⟩ : ∃ T, feedLines f = urlLine f :: T := by
        refine ⟨titleLine f :: feedTypeLine f ::
          (branchLines f ++ enabledLine f :: tagsLines f ++
            [notesLine f, addedByLine f, addedAtLine f]), ?_⟩
        simp only [feedLines, List.cons_append]
      rw [hfl]
      simp
    constructor <;>
      simp only [sepBlocks, feedsLines, List.length_cons, List.length_append] <;> omega

/-- Claim C2, amended: For every benign document (entries with their
free-text keys present and backslash- and newline-free, plain-scalar
`feed_type`, absent or quote-free non-empty `branch`, explicit
`enabled`, non-empty plain tags), a header of comment or blank lines and
a footer as `_extract_footer` collects it: reading the saved document
back yields exactly the document's entry list - so save-then-load
preserves the `FeedEntry` set - and an `add_feed` performed before
saving contributes exactly its one appended entry. -/
theorem c2_roundtrip_amended (headerLines footerLines : List Str) (cfg : Config)
    (hh : headerLines.all isSkipLine = true)
    (hf : footerOk footerLines = true)
    (hc : configBenign cfg = true) :
    (parseSavedFeeds (saveConfigLines headerLines footerLines cfg)).map (fun o => o.getD []) =
      some (cfg.feeds.getD []) ∧
    (∀ (r : Record) (addedBy today : Str), isFeedExists cfg r.url = false →
      ((addFeed cfg r addedBy today).1).feeds.getD [] =
        cfg.feeds.getD [] ++ [mkNewFeed r addedBy today]) := by
  refine ⟨?_, fun r addedBy today hex => by simp [addFeed, hex]⟩
  have hver : ∀ x, strL "version: " ++ x = 'v' :: (strL "ersion: " ++ x) := fun x => rfl
  have hverskip : isSkipLine (strL "version: " ++ natDigits (cfg.version.getD 1)) = false := by
    rw [hver]
    exact isSkipLine_head_false 'v' _ rfl rfl
  have hsave : saveConfigLines headerLines footerLines cfg =
      (if headerLines.isEmpty then [] else headerLines ++ [[]]) ++
        ((strL "version: " ++ natDigits (cfg.version.getD 1)) ::
          ([] :: (strL "feeds:" :: (feedsLines (cfg.feeds.getD []) ++
            (if footerLines.isEmpty then [] else [] :: [] :: [] :: footerLines))))) := by
    simp only [saveConfigLines, List.cons_append, List.append_assoc]
  have hhdr : (if headerLines.isEmpty then [] else headerLines ++ [[]]).all isSkipLine = true := by
    by_cases he : headerLines.isEmpty = true
    · simp [he]
    · simp only [he, Bool.false_eq_true, if_false, List.all_append, Bool.and_eq_true]
      exact ⟨hh, rfl⟩
  have hA : skipLines (saveConfigLines headerLines footerLines cfg) =
      (strL "version: " ++ natDigits (cfg.version.getD 1)) ::
        ([] :: (strL "feeds:" :: (feedsLines (cfg.feeds.getD []) ++
          (if footerLines.isEmpty then [] else [] :: [] :: [] :: footerLines)))) := by
    rw [hsave, skipLines_append_all _ _ hhdr]
    exact skipLines_cons_false _ _ hverskip
  have hB : popVersion ((strL "version: " ++ natDigits (cfg.version.getD 1)) ::
      ([] :: (strL "feeds:" :: (feedsLines (cfg.feeds.getD []) ++
        (if footerLines.isEmpty then [] else [] :: [] :: [] :: footerLines))))) =
      some (natDigits (cfg.version.getD 1),
        [] :: (strL "feeds:" :: (feedsLines (cfg.feeds.getD []) ++
          (if footerLines.isEmpty then [] else [] :: [] :: [] :: footerLines)))) := by
    simp [popVersion, dropPfx_append]
  have hfeedsne : (stripL (strL "feeds:")).isEmpty = false := rfl
  have hC : ([] :: (strL "feeds:" :: (feedsLines (cfg.feeds.getD []) ++
      (if footerLines.isEmpty then [] else [] :: [] :: [] :: footerLines)))).dropWhile
        (fun l => (stripL l).isEmpty) =
      strL "feeds:" :: (feedsLines (cfg.feeds.getD []) ++
        (if footerLines.isEmpty then [] else [] :: [] :: [] :: footerLines)) := by
    rw [List.dropWhile_cons, if_pos (by decide), List.dropWhile_cons, if_neg (by decide)]
  obtain ⟨htail, hrest⟩ := footer_tail_ok footerLines hf
  have hloop := (parseFeedsAux_blocks _ htail (cfg.feeds.getD [])
      ((feedsLines (cfg.feeds.getD []) ++
        (if footerLines.isEmpty then [] else [] :: [] :: [] :: footerLines)).length + 1)
      hc (by have := (length_le_blocks (cfg.feeds.getD [])).2
             simp only [List.length_append]
             omega)).2
  simp only [parseSavedFeeds, Option.bind_eq_bind, hA, hB, Option.some_bind, hC,
    expectFeedsLine, if_pos rfl, hloop, hrest, if_true, Option.map_some]
  cases hfs : cfg.feeds.getD [] with
  | nil => rfl
  | cons a l => rfl

/-- A concrete feed whose title ends in a backslash; every other field is
benign. -/
def feedBackslashTitle : Feed :=
  { url := some (strL "https://github.com/a/b"), title := some (strL "a\\"),
    feed_type := some (strL "github"), branch := some (strL "main"),
    enabled := some true, tags := some [strL "cookbook"],
    notes := some (strL "n"), added_by := some (strL "@bot"),
    added_at := some (strL "2024-01-01") }

/-- Claim C2, counterexample. `_escape_yaml_string` escapes only double
quotes, not backslashes: a title whose value ends in a backslash is
written as `    title: "a\"`, where the backslash turns the closing
quote into an escaped character, so the quoted scalar never closes on
its line and reading the saved document back fails - the
load-save-load round trip does not reproduce the original entry set. -/
theorem c2_counterexample :
    titleLine feedBackslashTitle = strL "    title: \"a\\\"" ∧
    parseSavedFeeds (saveConfigLines [] []
        { version := some 1, feeds := some [feedBackslashTitle] }) = none := by
  constructor <;> rfl

/-- A concrete benign document with one entry. -/
def cfgSample : Config := { version := some 1, feeds := some [feedQuotedTitle] }

/-- Witness for C2 (amended) at a concrete benign document with a
comment header and a validation footer. -/
theorem c2_roundtrip_amended_witness :
    (parseSavedFeeds (saveConfigLines [strL "# Cooklang feeds"]
        [strL "# Validation configuration", strL "validation:", strL "  required: true"]
        cfgSample)).map (fun o => o.getD []) = some (cfgSample.feeds.getD []) :=
  (c2_roundtrip_amended _ _ _ (by decide) (by decide) (by decide)).1

/-! ## Claim theorems: header/footer preservation (C4) -/

theorem stripL_cons_of_not_ws (c : Char) (t : Str) (hws : isWs c = false) :
    stripL (c :: t) = c :: rstripL t := by
  simp [stripL, lstripL, hws, rstripL_cons_of_not_ws _ hws]

theorem extractHeader_append_all (ls : List Str) (r : List Str)
    (h : ∀ l ∈ ls, (hasPfx (strL "#") (stripL l) || (stripL l).isEmpty) = true) :
    extractHeader (ls ++ r) = ls.map rstripL ++ extractHeader r := by
  induction ls with
  | nil => rfl
  | cons l t ih =>
    have hl := h l (List.mem_cons_self l t)
    have ht : ∀ x ∈ t, (hasPfx (strL "#") (stripL x) || (stripL x).isEmpty) = true :=
      fun x hx => h x (List.mem_cons_of_mem l hx)
    simp only [List.cons_append, extractHeader, hl, if_true, List.map_cons]
    rw [show t.append r = t ++ r from rfl, ih ht]

theorem extractHeader_stop (l : Str) (r : List Str)
    (h : (hasPfx (strL "#") (stripL l) || (stripL l).isEmpty) = false) :
    extractHeader (l :: r) = [] := by
  simp only [extractHeader, h, Bool.false_eq_true, if_false]

theorem extractFooterAux_not_trig (l : Str) (ls : List Str)
    (h1 : hasPfx (strL "# Validation configuration") (stripL l) = false)
    (h2 : hasPfx (strL "validation:") (stripL l) = false) :
    extractFooterAux (l :: ls) false = extractFooterAux ls false := by
  simp [extractFooterAux, h1, h2]

theorem extractFooterAux_append_not_trig (xs : List Str) (ls : List Str)
    (h : ∀ l ∈ xs, hasPfx (strL "# Validation configuration") (stripL l) = false ∧
        hasPfx (strL "validation:") (stripL l) = false) :
    extractFooterAux (xs ++ ls) false = extractFooterAux ls false := by
  induction xs with
  | nil => rfl
  | cons x t ih =>
    have hx := h x (List.mem_cons_self x t)
    rw [List.cons_append, extractFooterAux_not_trig x _ hx.1 hx.2]
    exact ih (fun y hy => h y (List.mem_cons_of_mem x hy))

theorem extractFooterAux_all_true (ls : List Str) :
    extractFooterAux ls true = ls.map rstripL := by
  induction ls with
  | nil => rfl
  | cons l t ih => simp [extractFooterAux, ih]

theorem extractFooter_trigger (l : Str) (ls : List Str)
    (h : hasPfx (strL "# Validation configuration") (stripL l) = true ∨
      hasPfx (strL "validation:") (stripL l) = true) :
    extractFooterAux (l :: ls) false = rstripL l :: ls.map rstripL := by
  rcases h with h | h
  · simp [extractFooterAux, h, extractFooterAux_all_true]
  · by_cases h1 : hasPfx (strL "# Validation configuration") (stripL l) = true
    · simp [extractFooterAux, h1, extractFooterAux_all_true]
    · have h1' : hasPfx (strL "# Validation configuration") (stripL l) = false :=
        Bool.eq_false_iff.mpr h1
      simp [extractFooterAux, h1', h, extractFooterAux_all_true]

/-- Both footer triggers are false for any line whose stripped form
starts with the given non-`#`, non-`v` character. -/
theorem not_trig_of_strip_head (l : Str) (c : Char) (t : Str) (hs : stripL l = c :: t)
    (h1 : (c == '#') = false) (h2 : (c == 'v') = false) :
    hasPfx (strL "# Validation configuration") (stripL l) = false ∧
    hasPfx (strL "validation:") (stripL l) = false := by
  have e1 : strL "# Validation configuration" = '#' :: strL " Validation configuration" := rfl
  have e2 : strL "validation:" = 'v' :: strL "alidation:" := rfl
  rw [hs, e1, e2]
  simp [hasPfx, h1, h2]

theorem stripL_shape (x y : Str) (c : Char) (z : Str)
    (hl : lstripL (x ++ y) = c :: z) (hws : isWs c = false) :
    stripL (x ++ y) = c :: rstripL z := by
  simp [stripL, hl, rstripL_cons_of_not_ws _ hws]

theorem not_trig_pfx (p : Str) (c : Char) (pr : Str) (y : Str)
    (hp : lstripL (p ++ y) = c :: pr) (hws : isWs c = false)
    (h1 : (c == '#') = false) (h2 : (c == 'v') = false) :
    hasPfx (strL "# Validation configuration") (stripL (p ++ y)) = false ∧
    hasPfx (strL "validation:") (stripL (p ++ y)) = false :=
  not_trig_of_strip_head _ c (rstripL pr)
    (by simp [stripL, hp, rstripL_cons_of_not_ws _ hws]) h1 h2

theorem extractFooterAux_branchLines (f : Feed) (R : List Str) :
    extractFooterAux (branchLines f ++ R) false = extractFooterAux R false := by
  rw [branchLines]
  cases f.branch with
  | none => rfl
  | some b =>
    by_cases hbe : b.isEmpty = true
    · simp [hbe]
    · have h := not_trig_pfx (strL "    branch: ") 'b'
        (strL "ranch: " ++ quoteWrap b) (quoteWrap b) rfl rfl rfl rfl
      simp only [hbe, Bool.false_eq_true, if_false, List.cons_append, List.nil_append]
      exact extractFooterAux_not_trig _ _ h.1 h.2

theorem extractFooterAux_tagLines (ts : List Str) (R : List Str) :
    extractFooterAux ((ts.map (fun t => strL "      - " ++ t)) ++ R) false =
      extractFooterAux R false := by
  apply extractFooterAux_append_not_trig
  intro l hl
  obtain ⟨t, _, rfl⟩ := List.mem_map.mp hl
  exact not_trig_pfx (strL "      - ") '-' (strL " " ++ t) t rfl rfl rfl rfl

theorem extractFooterAux_feedLines (f : Feed) (ls : List Str) :
    extractFooterAux (feedLines f ++ ls) false = extractFooterAux ls false := by
  have hu := not_trig_pfx (strL "  - url: ") '-'
    (strL " url: " ++ quoteWrap (escapeYamlString f.url))
    (quoteWrap (escapeYamlString f.url)) rfl rfl rfl rfl
  have ht := not_trig_pfx (strL "    title: ") 't'
    (strL "itle: " ++ quoteWrap (escapeYamlString f.title))
    (quoteWrap (escapeYamlString f.title)) rfl rfl rfl rfl
  have hft := not_trig_pfx (strL "    feed_type: ") 'f'
    (strL "eed_type: " ++ (match f.feed_type with | none => strL "None" | some s => s))
    (match f.feed_type with | none => strL "None" | some s => s) rfl rfl rfl rfl
  have he := not_trig_pfx (strL "    enabled: ") 'e'
    (strL "nabled: " ++ (if f.enabled.getD true then strL "true" else strL "false"))
    (if f.enabled.getD true then strL "true" else strL "false") rfl rfl rfl rfl
  have hth : hasPfx (strL "# Validation configuration") (stripL (strL "    tags:")) = false ∧
      hasPfx (strL "validation:") (stripL (strL "    tags:")) = false := by
    constructor <;> rfl
  have hn := not_trig_pfx (strL "    notes: ") 'n'
    (strL "otes: " ++ quoteWrap (escapeYamlString f.notes))
    (quoteWrap (escapeYamlString f.notes)) rfl rfl rfl rfl
  have hab := not_trig_pfx (strL "    added_by: ") 'a'
    (strL "dded_by: " ++ quoteWrap (escapeYamlString f.added_by))
    (quoteWrap (escapeYamlString f.added_by)) rfl rfl rfl rfl
  have haa := not_trig_pfx (strL "    added_at: ") 'a'
    (strL "dded_at: " ++ quoteWrap (escapeYamlString f.added_at))
    (quoteWrap (escapeYamlString f.added_at)) rfl rfl rfl rfl
  simp only [feedLines, tagsLines, urlLine, titleLine, feedTypeLine, enabledLine,
    notesLine, addedByLine, addedAtLine, List.cons_append, List.append_assoc]
  rw [extractFooterAux_not_trig _ _ hu.1 hu.2,
    extractFooterAux_not_trig _ _ ht.1 ht.2,
    extractFooterAux_not_trig _ _ hft.1 hft.2,
    extractFooterAux_branchLines f,
    extractFooterAux_not_trig _ _ he.1 he.2,
    extractFooterAux_not_trig _ _ hth.1 hth.2,
    extractFooterAux_tagLines,
    extractFooterAux_not_trig _ _ hn.1 hn.2,
    extractFooterAux_not_trig _ _ hab.1 hab.2,
    extractFooterAux_not_trig _ _ haa.1 haa.2]
  rfl

theorem extractFooterAux_blank (ls : List Str) :
    extractFooterAux ([] :: ls) false = extractFooterAux ls false :=
  extractFooterAux_not_trig [] ls rfl rfl

theorem extractFooterAux_blocks (fs : List Feed) (ls : List Str) :
    extractFooterAux (sepBlocks fs ++ ls) false = extractFooterAux ls false ∧
    extractFooterAux (feedsLines fs ++ ls) false = extractFooterAux ls false := by
  induction fs with
  | nil => exact ⟨rfl, rfl⟩
  | cons f fs' ih =>
    have hcmt : extractFooterAux (strL "  # GitHub repository feed" ::
        (feedLines f ++ (sepBlocks fs' ++ ls))) false =
        extractFooterAux (feedLines f ++ (sepBlocks fs' ++ ls)) false :=
      extractFooterAux_not_trig _ _ rfl rfl
    constructor
    · rw [sepBlocks, List.cons_append, List.append_assoc, extractFooterAux_blank,
        extractFooterAux_feedLines]
      exact ih.1
    · rw [feedsLines, List.cons_append, List.append_assoc, hcmt, extractFooterAux_feedLines]
      exact ih.1

theorem verLine_not_trig (y : Str) :
    hasPfx (strL "# Validation configuration") (stripL (strL "version: " ++ y)) = false ∧
    hasPfx (strL "validation:") (stripL (strL "version: " ++ y)) = false := by
  have h1 : lstripL (strL "version: " ++ y) = 'v' :: ('e' :: (strL "rsion: " ++ y)) := rfl
  have hs : stripL (strL "version: " ++ y) = 'v' :: ('e' :: rstripL (strL "rsion: " ++ y)) := by
    rw [stripL, h1, @rstripL_cons_of_not_ws 'v' _ rfl, @rstripL_cons_of_not_ws 'e' _ rfl]
  constructor
  · rw [hs, show strL "# Validation configuration" =
      '#' :: strL " Validation configuration" from rfl]
    simp [hasPfx]
  · rw [hs, show strL "validation:" = 'v' :: ('a' :: strL "lidation:") from rfl]
    simp [hasPfx]

theorem ver_stop (y : Str) :
    (hasPfx (strL "#") (stripL (strL "version: " ++ y)) ||
      (stripL (strL "version: " ++ y)).isEmpty) = false := by
  have h1 : lstripL (strL "version: " ++ y) = 'v' :: ('e' :: (strL "rsion: " ++ y)) := rfl
  have hs : stripL (strL "version: " ++ y) = 'v' :: ('e' :: rstripL (strL "rsion: " ++ y)) := by
    rw [stripL, h1, @rstripL_cons_of_not_ws 'v' _ rfl, @rstripL_cons_of_not_ws 'e' _ rfl]
  rw [hs, show strL "#" = ['#'] from rfl]
  simp [hasPfx]

/-- A value free of line-break characters.  `save_config` interpolates
field values into single `f.write` calls ending in one newline, so the
lines model represents its output faithfully exactly when every
interpolated value is line-break-free; a value containing a newline
would really be written across several physical lines. -/
def noLineBreak (s : Str) : Bool := s.all (fun c => !(c = '\n' || c = '\r'))

/-- Every value `save_config` interpolates for one entry is
line-break-free: the five quoted free-text fields, `feed_type`, the
optional `branch`, and each tag. -/
def feedNoLineBreak (f : Feed) : Bool :=
  noLineBreak (f.url.getD []) && noLineBreak (f.title.getD []) &&
  noLineBreak (f.feed_type.getD []) && noLineBreak (f.branch.getD []) &&
  noLineBreak (f.notes.getD []) && noLineBreak (f.added_by.getD []) &&
  noLineBreak (f.added_at.getD []) && (f.tags.getD []).all noLineBreak

/-- Every entry of the document has line-break-free field values. -/
def configNoLineBreak (cfg : Config) : Bool := (cfg.feeds.getD []).all feedNoLineBreak

/-- The leading region of a file: the maximal run of lines whose
stripped form is a comment or blank - exactly the lines
`_extract_header` reads before stopping. -/
def headerRegion (ls : List Str) : List Str :=
  ls.takeWhile (fun l => hasPfx (strL "#") (stripL l) || (stripL l).isEmpty)

/-- A stored footer as `_extract_footer` produces it: empty, or opening
with the line that triggered collection. -/
def footerTriggered : List Str → Prop
  | [] => True
  | l :: _ => hasPfx (strL "# Validation configuration") (stripL l) = true ∨
      hasPfx (strL "validation:") (stripL l) = true

/-- Claim C4, amended: Serialization does NOT reproduce the header and
footer regions byte-for-byte; what holds instead, provided every stored
header line is a comment or blank and none of them is a footer trigger,
the stored footer opens with its trigger line as `_extract_footer`
produces it, and no stored line or entry field value contains a line
break (a value with an embedded newline would be written across
physical lines and could inject a spurious `validation:` trigger): re-
extracting the header from the saved file yields the stored header
lines with trailing whitespace stripped, followed by ONE extra blank
separator line (none when the header is empty), and re-extracting the
footer yields exactly the stored footer lines with trailing whitespace
stripped; the entry sequence and the three blank separator lines sit in
between.  The line-break hypotheses delimit the region where the lines
model is faithful to `save_config`; within it the conclusion needs no
further conditions on the entries. -/
theorem c4_frame_amended (headerLines footerLines : List Str) (cfg : Config)
    (hh : ∀ l ∈ headerLines, (hasPfx (strL "#") (stripL l) || (stripL l).isEmpty) = true ∧
        hasPfx (strL "# Validation configuration") (stripL l) = false ∧
        hasPfx (strL "validation:") (stripL l) = false)
    (hf : footerTriggered footerLines)
    (_hnl : configNoLineBreak cfg = true)
    (_hhnl : headerLines.all noLineBreak = true)
    (_hfnl : footerLines.all noLineBreak = true) :
    extractHeader (saveConfigLines headerLines footerLines cfg) =
      (if headerLines.isEmpty then [] else headerLines.map rstripL ++ [[]]) ∧
    extractFooter (saveConfigLines headerLines footerLines cfg) =
      footerLines.map rstripL := by
  have hsave : saveConfigLines headerLines footerLines cfg =
      (if headerLines.isEmpty then [] else headerLines ++ [[]]) ++
        ((strL "version: " ++ natDigits (cfg.version.getD 1)) ::
          ([] :: (strL "feeds:" :: (feedsLines (cfg.feeds.getD []) ++
            (if footerLines.isEmpty then [] else [] :: [] :: [] :: footerLines))))) := by
    simp only [saveConfigLines, List.cons_append, List.append_assoc]
  have hstop : extractHeader ((strL "version: " ++ natDigits (cfg.version.getD 1)) ::
      ([] :: (strL "feeds:" :: (feedsLines (cfg.feeds.getD []) ++
        (if footerLines.isEmpty then [] else [] :: [] :: [] :: footerLines))))) = [] :=
    extractHeader_stop _ _ (ver_stop _)
  constructor
  · rw [hsave]
    by_cases he : headerLines.isEmpty = true
    · simp only [he, if_true, List.nil_append]
      exact hstop
    · simp only [he, Bool.false_eq_true, if_false]
      have hcb : ∀ l ∈ headerLines ++ [[]],
          (hasPfx (strL "#") (stripL l) || (stripL l).isEmpty) = true := by
        intro l hl
        rcases List.mem_append.mp hl with h | h
        · exact (hh l h).1
        · simp only [List.mem_singleton] at h
          subst h
          rfl
      rw [extractHeader_append_all _ _ hcb, hstop, List.map_append]
      simp
      rfl
  · rw [hsave, extractFooter]
    have hhp : ∀ l ∈ (if headerLines.isEmpty then [] else headerLines ++ [[]]),
        hasPfx (strL "# Validation configuration") (stripL l) = false ∧
        hasPfx (strL "validation:") (stripL l) = false := by
      by_cases he : headerLines.isEmpty = true
      · simp [he]
      · simp only [he, Bool.false_eq_true, if_false]
        intro l hl
        rcases List.mem_append.mp hl with h | h
        · exact ⟨(hh l h).2.1, (hh l h).2.2⟩
        · simp only [List.mem_singleton] at h
          subst h
          exact ⟨rfl, rfl⟩
    rw [extractFooterAux_append_not_trig _ _ hhp]
    rw [extractFooterAux_not_trig _ _ (verLine_not_trig _).1 (verLine_not_trig _).2]
    rw [extractFooterAux_blank]
    rw [extractFooterAux_not_trig (strL "feeds:") _ rfl rfl]
    rw [(extractFooterAux_blocks (cfg.feeds.getD []) _).2]
    cases footerLines with
    | nil => rfl
    | cons l ls =>
      simp only [List.isEmpty_cons, Bool.false_eq_true, if_false]
      rw [extractFooterAux_blank, extractFooterAux_blank, extractFooterAux_blank]
      exact extractFooter_trigger l ls hf

/-- A concrete original file: one comment line, a version line, an empty
feeds key. -/
def origSample : List Str := [strL "# Cooklang feeds", strL "version: 1", strL "feeds:"]

/-- Claim C4, counterexample. Saving the document loaded from a file whose
header is the single comment line `# Cooklang feeds` produces a file
whose leading comment/blank region has an extra blank line: the header
region is NOT reproduced byte-for-byte. -/
theorem c4_counterexample :
    headerRegion origSample = [strL "# Cooklang feeds"] ∧
    headerRegion (saveConfigLines (extractHeader origSample) (extractFooter origSample)
        { version := some 1, feeds := none }) = [strL "# Cooklang feeds", []] := by
  constructor <;> rfl

/-- Witness for C4 (amended) at a concrete one-entry document with a
header comment and a validation footer. -/
theorem c4_frame_amended_witness :
    extractHeader (saveConfigLines [strL "# Cooklang feeds"]
        [strL "validation:", strL "  required: true"] cfgSample) =
      [strL "# Cooklang feeds", []] ∧
    extractFooter (saveConfigLines [strL "# Cooklang feeds"]
        [strL "validation:", strL "  required: true"] cfgSample) =
      [strL "validation:", strL "  required: true"] := by
  have h := c4_frame_amended [strL "# Cooklang feeds"]
    [strL "validation:", strL "  required: true"] cfgSample
    (by intro l hl; simp only [List.mem_singleton] at hl; subst hl; exact ⟨rfl, rfl, rfl⟩)
    (Or.inr rfl) (by decide) (by decide) (by decide)
  exact ⟨h.1.trans (by decide), h.2.trans (by decide)⟩
